import Mathlib

/-!
Verification development for the PDF translation pipeline
(`src/server/routes.ts` and the pipeline variants recorded in `src/replit.md`).

The TypeScript source is shallowly embedded below:
  * JavaScript numbers that carry pixel coordinates, page geometry and
    confidences are modelled as rationals (`ℚ`);
  * strings are modelled as `String` / `List Char`;
  * the external capabilities (font metrics, the OCR engine, the network)
    are parameters of the embedded functions;
  * fallible operations return `Except`, and functions that may call the
    network additionally return the list of requests they issued.
-/

deriving instance DecidableEq for Except

namespace Translation

/-- JavaScript whitespace (`\s` / `String.prototype.trim`), restricted to the
ASCII range actually exercised by the pipeline. -/
def isWs (c : Char) : Bool :=
  c = ' ' || c = '\t' || c = '\n' || c = '\r' || c = '\x0b' || c = '\x0c'

/-- Embeds `String.prototype.trim`: drop leading and trailing whitespace. -/
def trimChars (cs : List Char) : List Char :=
  ((cs.dropWhile isWs).reverse.dropWhile isWs).reverse

/-- Helper of `splitWords`: split a character list at every whitespace
character, keeping empty pieces (they are filtered away by `splitWords`,
matching `paragraph.split(/\s+/).filter(w => w.length > 0)`). -/
def splitWsAux (cur : List Char) : List Char → List (List Char)
  | [] => [cur.reverse]
  | c :: rest =>
    if isWs c then cur.reverse :: splitWsAux [] rest
    else splitWsAux (c :: cur) rest

/-- Embeds `paragraph.split(/\s+/).filter(w => w.length > 0)` from the overlay
renderer: the non-empty maximal runs of non-whitespace characters. -/
def splitWords (cs : List Char) : List (List Char) :=
  (splitWsAux [] cs).filter (fun w => !w.isEmpty)

/-- Scanner state for `translatedText.split(/\n\n+/)`: `norm` when the last
character was not a newline, `oneNl` when exactly one newline is pending
(not yet known to be a separator), `sep` when inside a `\n\n+` separator
run (the finished paragraph has already been emitted). -/
inductive ParaMode where
  | norm
  | oneNl
  | sep
deriving DecidableEq, Repr

/-- Character-by-character evaluation of `.split(/\n\n+/)`: a run of two or
more newlines separates paragraphs, a single newline stays inside the
current paragraph. -/
def splitParasGo (m : ParaMode) (cur : List Char) : List Char → List (List Char)
  | [] =>
    match m with
    | .norm => [cur.reverse]
    | .oneNl => [('\n' :: cur).reverse]
    | .sep => [[]]
  | c :: rest =>
    match m with
    | .norm =>
      if c = '\n' then splitParasGo .oneNl cur rest
      else splitParasGo .norm (c :: cur) rest
    | .oneNl =>
      if c = '\n' then cur.reverse :: splitParasGo .sep [] rest
      else splitParasGo .norm (c :: '\n' :: cur) rest
    | .sep =>
      if c = '\n' then splitParasGo .sep [] rest
      else splitParasGo .norm [c] rest

/-- Embeds `translatedText.split(/\n\n+/)`: split into paragraphs on blank-line
boundaries (runs of at least two newlines). -/
def splitParas (cs : List Char) : List (List Char) :=
  splitParasGo ParaMode.norm [] cs

/-- One `page.drawText(line, { x, y, size: fontSize, font, color })` call of
the Reflow Overlay Renderer.  Size, font and colour are fixed in the source,
so only the drawn text and position vary. -/
structure DrawOp where
  text : List Char
  x : ℚ
  y : ℚ
deriving DecidableEq, Repr

/-- The constant `fontSize = 9`. -/
def fontSize : ℚ := 9

/-- The constant `margin = 25`. -/
def margin : ℚ := 25

/-- The constant `lineHeight = fontSize * 1.3`. -/
def lineHeight : ℚ := fontSize * (13 / 10)

/-- State of the word-wrap loop in `translatePdf`: the line being built, the
vertical cursor `y`, and the `drawText` calls issued so far. -/
structure WrapSt where
  line : List Char
  y : ℚ
  draws : List DrawOp
deriving DecidableEq, Repr

/-- The inner `for (const word of words)` loop of the Reflow Overlay
Renderer.  `f` is the external font metric `font.widthOfTextAtSize · 9`.
A word is appended to the current line while the candidate line still fits
in `maxWidth`; otherwise the current line is flushed (drawn at `x = margin`),
the cursor advances by `lineHeight`, the word starts a new line, and the
loop breaks once `y < margin + lineHeight`. -/
def wrapWords (f : List Char → ℚ) (maxWidth : ℚ) : List (List Char) → WrapSt → WrapSt
  | [], st => st
  | w :: ws, st =>
    let testLine := if st.line = [] then w else st.line ++ ' ' :: w
    if f testLine ≤ maxWidth then
      wrapWords f maxWidth ws ⟨testLine, st.y, st.draws⟩
    else
      let st2 : WrapSt :=
        if st.line = [] then ⟨w, st.y, st.draws⟩
        else ⟨w, st.y - lineHeight, st.draws ++ [⟨st.line, margin, st.y⟩]⟩
      if st2.y < margin + lineHeight then st2
      else wrapWords f maxWidth ws st2

/-- The outer `for (const paragraph of paragraphs)` loop: wrap the
paragraph's words, draw the trailing line when it is non-empty and the
cursor is still at or above the bottom margin, advance by `lineHeight`
for that draw plus an extra half `lineHeight` between paragraphs, and stop
once the cursor crosses the bottom margin. -/
def renderParas (f : List Char → ℚ) (maxWidth : ℚ) :
    List (List (List Char)) → ℚ → List DrawOp → List DrawOp
  | [], _, draws => draws
  | p :: ps, y, draws =>
    let st := wrapWords f maxWidth p ⟨[], y, draws⟩
    let st2 : WrapSt :=
      if st.line ≠ [] ∧ margin ≤ st.y then
        ⟨st.line, st.y - lineHeight, st.draws ++ [⟨st.line, margin, st.y⟩]⟩
      else st
    let y2 := st2.y - lineHeight * (1 / 2)
    if y2 < margin then st2.draws
    else renderParas f maxWidth ps y2 st2.draws

/-- The per-page body of `pages.forEach` in `translatePdf`: on an empty
translated text nothing is drawn (`if (!translatedText) return`), otherwise
the text is split into paragraphs and words and word-wrapped onto the page
of size `width × height`.  Returns the list of `drawText` calls. -/
def renderPage (f : List Char → ℚ) (width height : ℚ) (translatedText : String) :
    List DrawOp :=
  if translatedText = "" then []
  else
    renderParas f (width - margin * 2)
      ((splitParas translatedText.toList).map splitWords)
      (height - margin) []

/-- A concrete font-width model used for concrete evaluations: six units per
character (the external `font.widthOfTextAtSize` capability instantiated at
a fixed-pitch font). -/
def widthSix (cs : List Char) : ℚ := 6 * cs.length

/-- The bounding box record (x0, y0, x1, y1) of an OCR word, in raster pixel space. -/
structure Bbox where
  x0 : ℚ
  y0 : ℚ
  x1 : ℚ
  y1 : ℚ
deriving DecidableEq, Repr

/-- Embeds `interface OCRWord` from `extractTextFromPdfPage`. -/
structure OCRWord where
  text : String
  confidence : ℚ
  bbox : Bbox
deriving DecidableEq, Repr

/-- Embeds `interface OCRLine` from `extractTextFromPdfPage`. -/
structure OCRLine where
  text : String
  confidence : ℚ
  bbox : Bbox
  words : List OCRWord
deriving DecidableEq, Repr

/-- The constant `yTolerance = 4`. -/
def yTolerance : ℚ := 4

/-- Build one `OCRLine` from the words of `currentLine`: texts joined by
single spaces, mean confidence, coordinate-wise min/max bounding box. -/
def mkLine (ws : List OCRWord) : OCRLine :=
  { text := String.intercalate " " (ws.map (·.text))
    confidence := (ws.map (·.confidence)).sum / ws.length
    bbox :=
      { x0 := match ws.map (·.bbox.x0) with | [] => 0 | q :: qs => qs.foldl min q
        y0 := match ws.map (·.bbox.y0) with | [] => 0 | q :: qs => qs.foldl min q
        x1 := match ws.map (·.bbox.x1) with | [] => 0 | q :: qs => qs.foldl max q
        y1 := match ws.map (·.bbox.y1) with | [] => 0 | q :: qs => qs.foldl max q }
    words := ws }

/-- Embeds `[...words].sort((a, b) => a.bbox.y0 - b.bbox.y0)`: stable sort by the
top edge; `List.insertionSort` with `≤` is stable, like the JavaScript
engine's sort. -/
def sortWordsByY (ws : List OCRWord) : List OCRWord :=
  List.insertionSort (fun a b => a.bbox.y0 ≤ b.bbox.y0) ws

/-- The scan of the sorted word list in the Line Reconstructor: append the
next word to `cur` when its `y0` is within `yTolerance` of the previous
word's `y0` (strictly: `Math.abs(word.bbox.y0 - prevWord.bbox.y0) <
yTolerance`), otherwise finish the current line and start a new one. -/
def clusterAux (cur : List OCRWord) (prev : OCRWord) : List OCRWord → List OCRLine
  | [] => [mkLine cur]
  | w :: rest =>
    if |w.bbox.y0 - prev.bbox.y0| < yTolerance then
      clusterAux (cur ++ [w]) w rest
    else
      mkLine cur :: clusterAux [w] w rest

/-- The Line Reconstructor of `extractTextFromPdfPage`: sort the words by
`y0` and cluster them into lines; zero words yield zero lines. -/
def buildLines (ws : List OCRWord) : List OCRLine :=
  match sortWordsByY ws with
  | [] => []
  | w :: rest => clusterAux [w] w rest

/-- Stated from the amended claim wording, for comparison with `buildLines`:
walking the sorted words, a new line starts exactly when the current word's
`y0` differs from the previous word's `y0` by the tolerance or more. -/
def specGroupAux (cur : List OCRWord) (prev : OCRWord) : List OCRWord → List (List OCRWord)
  | [] => [cur]
  | w :: rest =>
    if yTolerance ≤ |w.bbox.y0 - prev.bbox.y0| then
      cur :: specGroupAux [w] w rest
    else
      specGroupAux (cur ++ [w]) w rest

/-- Stated from the amended claim wording: the grouping of the sorted words
into lines, breaking exactly at vertical jumps of at least the tolerance. -/
def specGrouping (ws : List OCRWord) : List (List OCRWord) :=
  match sortWordsByY ws with
  | [] => []
  | w :: rest => specGroupAux [w] w rest

/-- One element of the `results` array of `extractTextFromPdfPage`:
`{ variant, result, confidence }`, with the recognition payload abstracted
by a type parameter. -/
structure VariantResult (α : Type) where
  variant : String
  result : α
  confidence : ℚ
deriving DecidableEq, Repr

/-- Embeds `results.sort((a, b) => b.confidence - a.confidence)`: stable descending
sort by confidence. -/
def sortByConfidence {α : Type} (rs : List (VariantResult α)) : List (VariantResult α) :=
  List.insertionSort (fun a b => b.confidence ≤ a.confidence) rs

/-- The Variant Selector: after the descending stable sort, `results[0]`. -/
def selectBest {α : Type} (rs : List (VariantResult α)) : Option (VariantResult α) :=
  (sortByConfidence rs).head?

/-- Scanner state for `.replace(/^#+\s*/gm, '')`: `lineStart` means the next
character sits at a line start (`^` in multiline mode), `hashes` and `ws`
mean the scanner is inside the `#+` respectively `\s*` part of a match
(`ws` remembers whether the last consumed whitespace was a newline, since
that re-establishes a line start), `mid` is any other position. -/
inductive HeadMode where
  | lineStart
  | mid
  | hashes
  | ws (lastNl : Bool)
deriving DecidableEq, Repr

/-- Character-by-character evaluation of `.replace(/^#+\s*/gm, '')`. -/
def stripHeadsAux (m : HeadMode) : List Char → List Char
  | [] => []
  | c :: rest =>
    match m with
    | .lineStart =>
      if c = '#' then stripHeadsAux .hashes rest
      else c :: stripHeadsAux (if c = '\n' then .lineStart else .mid) rest
    | .mid => c :: stripHeadsAux (if c = '\n' then .lineStart else .mid) rest
    | .hashes =>
      if c = '#' then stripHeadsAux .hashes rest
      else if isWs c then stripHeadsAux (.ws (c = '\n')) rest
      else c :: stripHeadsAux .mid rest
    | .ws b =>
      if isWs c then stripHeadsAux (.ws (c = '\n')) rest
      else if b ∧ c = '#' then stripHeadsAux .hashes rest
      else c :: stripHeadsAux .mid rest

/-- Embeds `.replace(/^#+\s*/gm, '')` on a character list. -/
def stripHeads (cs : List Char) : List Char :=
  stripHeadsAux HeadMode.lineStart cs

/-- Embeds `.replace(/\*\*/g, '')`: remove non-overlapping `**` pairs, scanning
left to right. -/
def removeDoubleStars : List Char → List Char
  | [] => []
  | '*' :: '*' :: rest => removeDoubleStars rest
  | c :: rest => c :: removeDoubleStars rest

/-- Embeds `.replace(/\*/g, '')`. -/
def removeStars (cs : List Char) : List Char :=
  cs.filter (fun c => c ≠ '*')

/-- Embeds the backtick-removal step of `cleanedText` (a global `replace`
of every backtick, character code 96, with the empty string). -/
def removeBackticks (cs : List Char) : List Char :=
  cs.filter (fun c => c ≠ Char.ofNat 96)

/-- Try to match the tail of `/\[([^\]]+)\]\([^\)]+\)/` (everything after
the opening `[`): a non-empty run of non-`]` characters, `](`, a non-empty
run of non-`)` characters, `)`.  Returns the captured label and the rest of
the input on success. -/
def tryLink (cs : List Char) : Option (List Char × List Char) :=
  let label := cs.takeWhile (fun c => c ≠ ']')
  let r1 := cs.dropWhile (fun c => c ≠ ']')
  if label.isEmpty then none
  else
    match r1 with
    | ']' :: '(' :: r2 =>
      let url := r2.takeWhile (fun c => c ≠ ')')
      let r3 := r2.dropWhile (fun c => c ≠ ')')
      if url.isEmpty then none
      else
        match r3 with
        | ')' :: r4 => some (label, r4)
        | _ => none
    | _ => none

/-- Scanner for `.replace(/\[([^\]]+)\]\([^\)]+\)/g, '$1')`.  The fuel
argument only bounds the recursion: every step consumes at least one input
character, so `cs.length` fuel (as supplied by `replaceLinks`) is always
enough and the fuel-exhausted branch is dead code. -/
def replaceLinksGo : Nat → List Char → List Char
  | 0, rest => rest
  | _ + 1, [] => []
  | n + 1, c :: rest =>
    if c = '[' then
      match tryLink rest with
      | some lr => lr.1 ++ replaceLinksGo n lr.2
      | none => c :: replaceLinksGo n rest
    else c :: replaceLinksGo n rest

/-- Embeds `.replace(/\[([^\]]+)\]\([^\)]+\)/g, '$1')`: markdown links become their
label. -/
def replaceLinks (cs : List Char) : List Char :=
  replaceLinksGo cs.length cs

/-- The `cleanedText` computation of `translatePdf`: strip markdown heading
marks, bold/italic stars, links and backticks, then trim. -/
def cleanText (s : String) : String :=
  ⟨trimChars (removeBackticks (replaceLinks (removeStars (removeDoubleStars (stripHeads s.toList)))))⟩

/-- Embeds `pageText && pageText.trim().length > 10`: the minimum-character
threshold guarding the translation call. -/
def thresholdOk (p : String) : Prop :=
  p ≠ "" ∧ 10 < (trimChars p.toList).length

instance (p : String) : Decidable (thresholdOk p) := by
  unfold thresholdOk; exact inferInstance

/-- A JSON value, as far as the response parsing of
`translateWithHuggingFace` inspects it. -/
inductive Json where
  | str (s : String)
  | num (q : ℚ)
  | bool (b : Bool)
  | null
  | arr (elems : List Json)
  | obj (fields : List (String × Json))

/-- Property lookup on a JSON object. -/
def getField (fields : List (String × Json)) (k : String) : Option Json :=
  match fields.find? (fun f => f.1 == k) with
  | some f => some f.2
  | none => none

/-- Embeds `Array.isArray(result) && result.length > 0 && result[0]?.translation_text`:
the first branch of the response parsing.  JavaScript truthiness of the
string field is modelled as non-emptiness. -/
def arrayTranslationText : Json → Option String
  | Json.arr (Json.obj fs :: _) =>
    match getField fs "translation_text" with
    | some (Json.str s) => if s = "" then none else some s
    | _ => none
  | _ => none

/-- Embeds `result && typeof result === 'object' && 'generated_text' in result &&
typeof result.generated_text === 'string'`: the second branch. -/
def objGeneratedText : Json → Option String
  | Json.obj fs =>
    match getField fs "generated_text" with
    | some (Json.str s) => some s
    | _ => none
  | _ => none

/-- The response-format cascade of `translateWithHuggingFace`: array with a
truthy `translation_text`, object with a string `generated_text`, bare
string, otherwise an invalid-format error. -/
def parseTranslation (j : Json) : Except String String :=
  match arrayTranslationText j with
  | some s => Except.ok s
  | none =>
    match objGeneratedText j with
    | some s => Except.ok s
    | none =>
      match j with
      | Json.str s => Except.ok s
      | _ => Except.error "Invalid translation response format"

/-- Outcome of one `fetch` to the translation endpoint: either the promise
rejects (network failure), or a response arrives with its `ok` flag, status
code, body text and parsed JSON body. -/
inductive NetOutcome where
  | fail (err : String)
  | resp (ok : Bool) (status : Nat) (bodyText : String) (body : Json)

/-- Embeds `translateWithHuggingFace` from `routes.ts`, instrumented with the list
of requests issued to the network capability `net`.  Empty or
whitespace-only input returns `""` immediately; otherwise one request is
made, a non-ok response or a rejected fetch throws (modelled as
`Except.error`), and an ok response goes through `parseTranslation`. -/
def translateWithHuggingFace (net : String → NetOutcome) (text : String) :
    Except String String × List String :=
  if text = "" ∨ (trimChars text.toList).length = 0 then (Except.ok "", [])
  else
    match net text with
    | NetOutcome.fail e => (Except.error e, [text])
    | NetOutcome.resp ok status bodyText body =>
      if ok = false then
        (Except.error ("Translation failed: " ++ toString status ++ " - " ++ bodyText), [text])
      else (parseTranslation body, [text])

/-- The per-page body of the extraction/translation loop of `translatePdf`:
below the threshold the page's translated text is `""` and no translation
is attempted; above it, `translateWithHuggingFace` is called on the cleaned
text, and a thrown error is caught and replaced by the diagnostic
`[Translation failed: …]` string.  Returns the translated text pushed for
the page together with the network requests issued. -/
def processPage (net : String → NetOutcome) (p : String) : String × List String :=
  if thresholdOk p then
    match translateWithHuggingFace net (cleanText p) with
    | (Except.ok tr, calls) => (tr, calls)
    | (Except.error e, calls) => ("[Translation failed: " ++ e ++ "]", calls)
  else ("", [])

/-- The whole per-page loop of `translatePdf`: pushes one extracted text and
one translated text per page, accumulating the network requests. -/
def processPagesAux (net : String → NetOutcome) : List String → List String × List String × List String
  | [] => ([], [], [])
  | p :: rest =>
    let r := processPage net p
    let t := processPagesAux net rest
    (p :: t.1, r.1 :: t.2.1, r.2 ++ t.2.2)

/-- The duration `30 * 60 * 1000` milliseconds: the TTL used by
`setTimeout(() => translationCache.delete(jobId), 30 * 60 * 1000)`. -/
def cacheTTL : ℚ := 30 * 60 * 1000

/-- One `translationCache` entry: the stored artifact plus its insertion
timestamp (the `timestamp: Date.now()` field). -/
structure CacheEntry (α : Type) where
  value : α
  timestamp : ℚ
deriving DecidableEq, Repr

/-- Embeds `translationCache.get(jobId)` observed at time `now`: the `Map` holds
the entry from its `set` until the `setTimeout` deletion fires `cacheTTL`
after insertion, so a lookup sees the value exactly while
`now - timestamp < cacheTTL`; an absent key yields `none` ("not found"). -/
def cacheGet {α : Type} (store : List (String × CacheEntry α)) (now : ℚ) (k : String) :
    Option α :=
  match store.find? (fun kv => kv.1 == k) with
  | some kv => if now - kv.2.timestamp < cacheTTL then some kv.2.value else none
  | none => none

/-! ### Helper lemmas -/

theorem trimChars_length_le (cs : List Char) : (trimChars cs).length ≤ cs.length := by
  unfold trimChars
  calc ((cs.dropWhile isWs).reverse.dropWhile isWs).reverse.length
      = ((cs.dropWhile isWs).reverse.dropWhile isWs).length := List.length_reverse _
    _ ≤ (cs.dropWhile isWs).reverse.length := (List.dropWhile_sublist _).length_le
    _ = (cs.dropWhile isWs).length := List.length_reverse _
    _ ≤ cs.length := (List.dropWhile_sublist _).length_le

theorem dropWhile_isWs_eq_nil (cs : List Char) (h : ∀ c ∈ cs, isWs c = true) :
    cs.dropWhile isWs = [] := by
  induction cs with
  | nil => rfl
  | cons c cs ih =>
    rw [List.dropWhile_cons, if_pos (h c (List.mem_cons_self c cs))]
    exact ih fun x hx => h x (List.mem_cons_of_mem c hx)

theorem trimChars_all_ws (cs : List Char) (h : ∀ c ∈ cs, isWs c = true) :
    trimChars cs = [] := by
  rw [trimChars, dropWhile_isWs_eq_nil cs h]
  rfl

theorem splitWsAux_no_ws (cs : List Char) : ∀ cur : List Char,
    (∀ c ∈ cur, isWs c = false) →
    ∀ w ∈ splitWsAux cur cs, ∀ c ∈ w, isWs c = false := by
  induction cs with
  | nil =>
    intro cur h w hw c hc
    simp only [splitWsAux, List.mem_singleton] at hw
    subst hw
    exact h c (List.mem_reverse.mp hc)
  | cons c0 cs ih =>
    intro cur h w hw c hc
    by_cases hws : isWs c0 = true
    · rw [splitWsAux, if_pos hws] at hw
      rcases List.mem_cons.mp hw with rfl | hw2
      · exact h c (List.mem_reverse.mp hc)
      · exact ih [] (by intro x hx; exact absurd hx (List.not_mem_nil x)) w hw2 c hc
    · rw [splitWsAux, if_neg hws] at hw
      refine ih (c0 :: cur) ?_ w hw c hc
      intro x hx
      rcases List.mem_cons.mp hx with rfl | hx2
      · exact Bool.eq_false_iff.mpr hws
      · exact h x hx2

theorem splitWords_no_ws (cs : List Char) (w : List Char) (hw : w ∈ splitWords cs) :
    ∀ c ∈ w, isWs c = false := by
  have hmem : w ∈ splitWsAux [] cs := List.mem_of_mem_filter hw
  exact splitWsAux_no_ws cs [] (by intro x hx; exact absurd hx (List.not_mem_nil x)) w hmem

theorem processPagesAux_extracted (net : String → NetOutcome) :
    ∀ ps : List String, (processPagesAux net ps).1 = ps := by
  intro ps
  induction ps with
  | nil => rfl
  | cons p ps ih => simp [processPagesAux, ih]

theorem processPagesAux_translated (net : String → NetOutcome) :
    ∀ ps : List String,
      (processPagesAux net ps).2.1 = ps.map (fun p => (processPage net p).1) := by
  intro ps
  induction ps with
  | nil => rfl
  | cons p ps ih => simp [processPagesAux, ih]

/-! ### C5: threshold skip and equal page counts -/

/-- C5: for every processed document the list of per-page translated texts
has exactly the length of the list of per-page extracted texts (which is
the input page list), and a page whose extracted text has at most 10
characters yields the empty translated text with no call to the
translation capability. -/
theorem c5_threshold (net : String → NetOutcome) (pages : List String) (p : String)
    (hp : p.length ≤ 10) :
    (processPagesAux net pages).2.1.length = (processPagesAux net pages).1.length
    ∧ (processPagesAux net pages).1 = pages
    ∧ processPage net p = ("", []) := by
  refine ⟨?_, processPagesAux_extracted net pages, ?_⟩
  · rw [processPagesAux_translated, processPagesAux_extracted, List.length_map]
  · rw [processPage, if_neg]
    intro hth
    have h1 : (trimChars p.toList).length ≤ p.toList.length := trimChars_length_le _
    have h2 : p.toList.length = p.length := rfl
    have h3 := hth.2
    omega

/-- C5 witness: a 5-character page is skipped with empty translated text
and no network call, and the two output lists have equal length. -/
theorem c5_threshold_witness :
    (processPagesAux (fun _ => NetOutcome.fail "x") ["abcde"]).2.1.length
        = (processPagesAux (fun _ => NetOutcome.fail "x") ["abcde"]).1.length
    ∧ (processPagesAux (fun _ => NetOutcome.fail "x") ["abcde"]).1 = ["abcde"]
    ∧ processPage (fun _ => NetOutcome.fail "x") "abcde" = ("", []) :=
  c5_threshold (fun _ => NetOutcome.fail "x") ["abcde"] "abcde" (by decide)

/-! ### C8: empty translated text draws nothing -/

/-- C8: a page whose translated text is empty gets no `drawText` call at
all, for every page geometry and every font metric: the output page is the
bare copied original. -/
theorem c8_empty_page (f : List Char → ℚ) (w h : ℚ) :
    renderPage f w h "" = [] := by
  rw [renderPage, if_pos rfl]

/-! ### C9: job cache TTL behaviour -/

/-- C9: a job inserted at time `T` is returned by every lookup before
`T + cacheTTL`, is reported not found by every lookup from `T + cacheTTL`
on, a never-inserted job identifier is reported not found, and an expired
entry stays not found at every later time (it is never reconstructed). -/
theorem c9_cache_ttl {α : Type} (store : List (String × CacheEntry α)) (k : String)
    (v : α) (T now now2 : ℚ)
    (hfind : store.find? (fun kv => kv.1 == k) = some (k, CacheEntry.mk v T)) :
    (now < T + cacheTTL → cacheGet store now k = some v)
    ∧ (T + cacheTTL ≤ now → cacheGet store now k = none)
    ∧ (∀ k2, store.find? (fun kv => kv.1 == k2) = none → cacheGet store now k2 = none)
    ∧ (T + cacheTTL ≤ now → now ≤ now2 → cacheGet store now2 k = none) := by
  have hg : ∀ t : ℚ, cacheGet store t k = if t - T < cacheTTL then some v else none := by
    intro t
    rw [cacheGet, hfind]
  refine ⟨?_, ?_, ?_, ?_⟩
  · intro hlt
    rw [hg, if_pos (by linarith)]
  · intro hge
    rw [hg, if_neg (by linarith)]
  · intro k2 hf2
    rw [cacheGet, hf2]
  · intro hge hle
    rw [hg, if_neg (by linarith)]

/-- C9 witness: with TTL 30 minutes (1800000 ms), an entry inserted at time
0 is found at time 5 and not found at time 1800001. -/
theorem c9_cache_ttl_witness :
    cacheGet [("j", CacheEntry.mk (0 : Nat) 0)] 5 "j" = some 0
    ∧ cacheGet [("j", CacheEntry.mk (0 : Nat) 0)] 1800001 "j" = none :=
  ⟨(c9_cache_ttl [("j", CacheEntry.mk (0 : Nat) 0)] "j" 0 0 5 5
      (by simp [List.find?])).1 (by norm_num [cacheTTL]),
   (c9_cache_ttl [("j", CacheEntry.mk (0 : Nat) 0)] "j" 0 0 1800001 1800001
      (by simp [List.find?])).2.1 (by norm_num [cacheTTL])⟩

/-! ### C10: whitespace-only input short-circuits the dispatcher -/

/-- C10: on input that is empty or consists only of whitespace, the
translation dispatcher returns the empty string at once, issues no request
to the translation capability, and in particular cannot fail. -/
theorem c10_whitespace_skip (net : String → NetOutcome) (text : String)
    (h : ∀ c ∈ text.toList, isWs c = true) :
    translateWithHuggingFace net text = (Except.ok "", []) := by
  rw [translateWithHuggingFace,
    if_pos (Or.inr (by rw [trimChars_all_ws _ h]; rfl))]

/-- C10 witness: the two-space input returns `""` with no network request,
for an arbitrary concrete network behaviour. -/
theorem c10_whitespace_skip_witness :
    translateWithHuggingFace (fun _ => NetOutcome.fail "x") "  " = (Except.ok "", []) :=
  c10_whitespace_skip (fun _ => NetOutcome.fail "x") "  " (by decide)

/-! ### C2, C3: the Line Reconstructor -/

theorem clusterAux_words_flatten : ∀ (rest cur : List OCRWord) (prev : OCRWord),
    ((clusterAux cur prev rest).map OCRLine.words).flatten = cur ++ rest := by
  intro rest
  induction rest with
  | nil =>
    intro cur prev
    simp [clusterAux, mkLine]
  | cons w rest ih =>
    intro cur prev
    rw [clusterAux]
    by_cases htol : |w.bbox.y0 - prev.bbox.y0| < yTolerance
    · rw [if_pos htol, ih]
      simp
    · rw [if_neg htol]
      simp [ih, mkLine]

theorem clusterAux_words_ne_nil : ∀ (rest cur : List OCRWord) (prev : OCRWord),
    cur ≠ [] → ∀ l ∈ clusterAux cur prev rest, l.words ≠ [] := by
  intro rest
  induction rest with
  | nil =>
    intro cur prev hcur l hl
    simp only [clusterAux, List.mem_singleton] at hl
    subst hl
    simpa [mkLine] using hcur
  | cons w rest ih =>
    intro cur prev hcur l hl
    rw [clusterAux] at hl
    by_cases htol : |w.bbox.y0 - prev.bbox.y0| < yTolerance
    · rw [if_pos htol] at hl
      exact ih (cur ++ [w]) w (by simp) l hl
    · rw [if_neg htol] at hl
      rcases List.mem_cons.mp hl with rfl | hl2
      · simpa [mkLine] using hcur
      · exact ih [w] w (by simp) l hl2

theorem length_le_flatten_length : ∀ ls : List (List OCRWord),
    (∀ l ∈ ls, l ≠ []) → ls.length ≤ ls.flatten.length := by
  intro ls
  induction ls with
  | nil => intro _; simp
  | cons l ls ih =>
    intro h
    have h1 : 0 < l.length :=
      List.length_pos.mpr (h l (List.mem_cons_self l ls))
    have h2 := ih fun x hx => h x (List.mem_cons_of_mem l hx)
    simp only [List.flatten_cons, List.length_append, List.length_cons]
    omega

/-- C3: the Line Reconstructor produces at most as many lines as input
words, the words of the produced lines are exactly the input words (each
input word lands in exactly one line, none dropped, duplicated or shared),
and the empty word list yields zero lines without error. -/
theorem c3_partition (ws : List OCRWord) :
    (buildLines ws).length ≤ ws.length
    ∧ List.Perm ((buildLines ws).map OCRLine.words).flatten ws
    ∧ buildLines ([] : List OCRWord) = [] := by
  have hperm : List.Perm (sortWordsByY ws) ws := List.perm_insertionSort _ ws
  rcases e : sortWordsByY ws with _ | ⟨w, rest⟩
  · rw [e] at hperm
    have hws : ws = [] := List.perm_nil.mp hperm.symm
    subst hws
    refine ⟨?_, ?_, rfl⟩
    · simp [buildLines, e]
    · simp only [buildLines, e]
      exact List.Perm.refl _
  · rw [e] at hperm
    have hflat : ((clusterAux [w] w rest).map OCRLine.words).flatten = w :: rest :=
      clusterAux_words_flatten rest [w] w
    refine ⟨?_, ?_, rfl⟩
    · rw [buildLines, e]
      have hne : ∀ l ∈ (clusterAux [w] w rest).map OCRLine.words, l ≠ [] := by
        intro l hl
        rcases List.mem_map.mp hl with ⟨ln, hln, rfl⟩
        exact clusterAux_words_ne_nil rest [w] w (by simp) ln hln
      have hle := length_le_flatten_length _ hne
      rw [hflat] at hle
      rw [List.length_map] at hle
      calc (clusterAux [w] w rest).length ≤ (w :: rest).length := hle
        _ = ws.length := hperm.length_eq
    · rw [buildLines, e, hflat]
      exact hperm

theorem clusterAux_eq_specGroupAux : ∀ (rest cur : List OCRWord) (prev : OCRWord),
    (clusterAux cur prev rest).map OCRLine.words = specGroupAux cur prev rest := by
  intro rest
  induction rest with
  | nil =>
    intro cur prev
    simp [clusterAux, specGroupAux, mkLine]
  | cons w rest ih =>
    intro cur prev
    by_cases htol : |w.bbox.y0 - prev.bbox.y0| < yTolerance
    · rw [clusterAux, if_pos htol, specGroupAux, if_neg (not_le.mpr htol), ih]
    · rw [clusterAux, if_neg htol, specGroupAux, if_pos (not_lt.mp htol)]
      simp [ih, mkLine]

/-- C2 (amended): after sorting by `y0`, the Line Reconstructor starts a
new line exactly when the current word's `y0` differs from the previous
word's `y0` by the tolerance (4) or more, and otherwise appends to the
current line; the word list with `y0 = 10, 11, 40` still clusters into the
two lines `{10, 11}` and `{40}`. -/
theorem c2_line_rule (ws : List OCRWord) :
    (buildLines ws).map OCRLine.words = specGrouping ws
    ∧ (buildLines [⟨"a", 90, ⟨0, 10, 5, 20⟩⟩, ⟨"b", 80, ⟨6, 11, 9, 20⟩⟩,
          ⟨"c", 70, ⟨0, 40, 5, 50⟩⟩]).map OCRLine.words
        = [[⟨"a", 90, ⟨0, 10, 5, 20⟩⟩, ⟨"b", 80, ⟨6, 11, 9, 20⟩⟩],
           [⟨"c", 70, ⟨0, 40, 5, 50⟩⟩]] := by
  constructor
  · rw [buildLines, specGrouping]
    rcases e : sortWordsByY ws with _ | ⟨w, rest⟩
    · rfl
    · exact clusterAux_eq_specGroupAux rest [w] w
  · norm_num [buildLines, sortWordsByY, List.insertionSort, List.orderedInsert, clusterAux,
      yTolerance, mkLine, abs_lt]

/-- C2 counterexample: two words whose `y0` difference is exactly the
tolerance 4 — not more than 4, so the claimed rule would append to the
current line — are nevertheless split into two lines by the code (its test
is `|diff| < 4` for staying on the line). -/
theorem c2_counterexample :
    ¬(yTolerance < |(14 : ℚ) - 10|)
    ∧ (buildLines [⟨"a", 90, ⟨0, 10, 5, 20⟩⟩, ⟨"b", 80, ⟨6, 14, 9, 20⟩⟩]).map OCRLine.words
        = [[⟨"a", 90, ⟨0, 10, 5, 20⟩⟩], [⟨"b", 80, ⟨6, 14, 9, 20⟩⟩]] := by
  constructor
  · norm_num [yTolerance]
  · norm_num [buildLines, sortWordsByY, List.insertionSort, List.orderedInsert, clusterAux,
      yTolerance, mkLine, abs_lt]

/-! ### C4: the Variant Selector -/

theorem selectBest_spec {α : Type} : ∀ (l : List (VariantResult α)) (r : VariantResult α),
    selectBest l = some r →
    (∀ x ∈ l, x.confidence ≤ r.confidence)
    ∧ ∃ pre post, l = pre ++ r :: post ∧ ∀ p ∈ pre, p.confidence < r.confidence := by
  intro l
  induction l with
  | nil =>
    intro r h
    exact absurd h (by simp [selectBest, sortByConfidence, List.insertionSort])
  | cons x xs ih =>
    intro r h
    rw [selectBest, sortByConfidence, List.insertionSort] at h
    rcases e : List.insertionSort (fun a b => b.confidence ≤ a.confidence) xs with _ | ⟨y, t⟩
    · have hxs : xs = [] := by
        have hp := List.perm_insertionSort (fun a b => b.confidence ≤ a.confidence) xs
        rw [e] at hp
        exact List.perm_nil.mp hp.symm
      rw [e] at h
      simp only [List.orderedInsert, List.head?_cons, Option.some.injEq] at h
      subst h
      subst hxs
      refine ⟨?_, [], [], rfl, by simp⟩
      intro z hz
      rcases List.mem_cons.mp hz with rfl | hz2
      · exact le_refl _
      · exact absurd hz2 (List.not_mem_nil z)
    · rw [e, List.orderedInsert] at h
      obtain ⟨hmax, pre, post, hsplit, hpre⟩ :=
        ih y (by rw [selectBest, sortByConfidence, e]; rfl)
      by_cases hr : y.confidence ≤ x.confidence
      · rw [if_pos hr] at h
        simp only [List.head?_cons, Option.some.injEq] at h
        subst h
        refine ⟨?_, [], xs, rfl, by simp⟩
        intro z hz
        rcases List.mem_cons.mp hz with rfl | hz2
        · exact le_refl _
        · exact (hmax z hz2).trans hr
      · rw [if_neg hr] at h
        simp only [List.head?_cons, Option.some.injEq] at h
        subst h
        refine ⟨?_, x :: pre, post, by rw [hsplit]; rfl, ?_⟩
        · intro z hz
          rcases List.mem_cons.mp hz with rfl | hz2
          · exact le_of_lt (lt_of_not_le hr)
          · exact hmax z hz2
        · intro p hp
          rcases List.mem_cons.mp hp with rfl | hp2
          · exact lt_of_not_le hr
          · exact hpre p hp2

/-- C4: the Variant Selector returns the variant result with the highest
aggregate confidence, and among equal confidences the one earliest in the
fixed construction order (so `grayscale`, built first, wins ties against
`adaptive`); being a pure function of the confidences, it is
deterministic. -/
theorem c4_selector {α : Type} (rs : List (VariantResult α)) (r : VariantResult α)
    (h : selectBest rs = some r) (g a : VariantResult α)
    (hga : g.confidence = a.confidence) :
    ((∀ x ∈ rs, x.confidence ≤ r.confidence)
      ∧ ∃ pre post, rs = pre ++ r :: post ∧ ∀ p ∈ pre, p.confidence < r.confidence)
    ∧ selectBest [g, a] = some g := by
  refine ⟨selectBest_spec rs r h, ?_⟩
  rw [selectBest, sortByConfidence, List.insertionSort, List.insertionSort,
    List.insertionSort, List.orderedInsert, List.orderedInsert,
    if_pos (le_of_eq hga.symm)]
  rfl

/-- C4 witness: with both variants at confidence 80, the grayscale result
(first in construction order) is selected, it is maximal, and it splits the
list with no strictly-greater prefix. -/
theorem c4_selector_witness :
    ((∀ x ∈ [VariantResult.mk "grayscale" (0 : Nat) 80, VariantResult.mk "adaptive" 1 80],
        x.confidence ≤ (VariantResult.mk "grayscale" (0 : Nat) 80).confidence)
      ∧ ∃ pre post,
          [VariantResult.mk "grayscale" (0 : Nat) 80, VariantResult.mk "adaptive" 1 80]
            = pre ++ VariantResult.mk "grayscale" (0 : Nat) 80 :: post
          ∧ ∀ p ∈ pre, p.confidence < (VariantResult.mk "grayscale" (0 : Nat) 80).confidence)
    ∧ selectBest [VariantResult.mk "grayscale" (0 : Nat) 80, VariantResult.mk "adaptive" 1 80]
        = some (VariantResult.mk "grayscale" (0 : Nat) 80) :=
  c4_selector
    [VariantResult.mk "grayscale" (0 : Nat) 80, VariantResult.mk "adaptive" 1 80]
    (VariantResult.mk "grayscale" (0 : Nat) 80)
    (by norm_num [selectBest, sortByConfidence, List.insertionSort, List.orderedInsert])
    (VariantResult.mk "grayscale" (0 : Nat) 80) (VariantResult.mk "adaptive" 1 80) rfl

/-! ### C1, C7: the Reflow Overlay Renderer -/

theorem wrapWords_cons (f : List Char → ℚ) (mW : ℚ) (w : List Char)
    (ws : List (List Char)) (st : WrapSt) :
    wrapWords f mW (w :: ws) st =
      if f (if st.line = [] then w else st.line ++ ' ' :: w) ≤ mW then
        wrapWords f mW ws ⟨if st.line = [] then w else st.line ++ ' ' :: w, st.y, st.draws⟩
      else
        if (if st.line = [] then (⟨w, st.y, st.draws⟩ : WrapSt)
            else ⟨w, st.y - lineHeight, st.draws ++ [⟨st.line, margin, st.y⟩]⟩).y
            < margin + lineHeight then
          if st.line = [] then (⟨w, st.y, st.draws⟩ : WrapSt)
          else ⟨w, st.y - lineHeight, st.draws ++ [⟨st.line, margin, st.y⟩]⟩
        else
          wrapWords f mW ws
            (if st.line = [] then (⟨w, st.y, st.draws⟩ : WrapSt)
             else ⟨w, st.y - lineHeight, st.draws ++ [⟨st.line, margin, st.y⟩]⟩) := rfl

theorem lineHeight_nonneg : (0 : ℚ) ≤ lineHeight := by
  norm_num [lineHeight, fontSize]

theorem wrapWords_draws_y (f : List Char → ℚ) (mW : ℚ) :
    ∀ (ws : List (List Char)) (st : WrapSt), margin ≤ st.y →
      ∀ d ∈ (wrapWords f mW ws st).draws, d ∈ st.draws ∨ margin ≤ d.y := by
  intro ws
  induction ws with
  | nil =>
    intro st hy d hd
    exact Or.inl hd
  | cons w ws ih =>
    intro st hy d hd
    rw [wrapWords_cons] at hd
    by_cases hemp : st.line = []
    · simp only [if_pos hemp] at hd
      by_cases hfit : f w ≤ mW
      · rw [if_pos hfit] at hd
        exact ih ⟨w, st.y, st.draws⟩ hy d hd
      · rw [if_neg hfit] at hd
        by_cases hbrk : (⟨w, st.y, st.draws⟩ : WrapSt).y < margin + lineHeight
        · rw [if_pos hbrk] at hd
          exact Or.inl hd
        · rw [if_neg hbrk] at hd
          exact ih ⟨w, st.y, st.draws⟩ hy d hd
    · simp only [if_neg hemp] at hd
      by_cases hfit : f (st.line ++ ' ' :: w) ≤ mW
      · rw [if_pos hfit] at hd
        exact ih ⟨st.line ++ ' ' :: w, st.y, st.draws⟩ hy d hd
      · rw [if_neg hfit] at hd
        by_cases hbrk : (⟨w, st.y - lineHeight, st.draws ++ [⟨st.line, margin, st.y⟩]⟩ : WrapSt).y
            < margin + lineHeight
        · rw [if_pos hbrk] at hd
          rcases List.mem_append.mp hd with h1 | h2
          · exact Or.inl h1
          · right
            rw [List.mem_singleton] at h2
            subst h2
            exact hy
        · rw [if_neg hbrk] at hd
          have hy2 : margin ≤ (⟨w, st.y - lineHeight,
              st.draws ++ [⟨st.line, margin, st.y⟩]⟩ : WrapSt).y := by
            have h1 := not_lt.mp hbrk
            have h2 := lineHeight_nonneg
            dsimp only at h1 ⊢
            linarith
          rcases ih _ hy2 d hd with h1 | h2
          · rcases List.mem_append.mp h1 with h3 | h4
            · exact Or.inl h3
            · right
              rw [List.mem_singleton] at h4
              subst h4
              exact hy
          · exact Or.inr h2

theorem renderParas_draws_y (f : List Char → ℚ) (mW : ℚ) :
    ∀ (ps : List (List (List Char))) (y : ℚ) (draws : List DrawOp), margin ≤ y →
      ∀ d ∈ renderParas f mW ps y draws, d ∈ draws ∨ margin ≤ d.y := by
  intro ps
  induction ps with
  | nil =>
    intro y draws hy d hd
    exact Or.inl hd
  | cons p ps ih =>
    intro y draws hy d hd
    have hwrap : ∀ d2 ∈ (wrapWords f mW p ⟨[], y, draws⟩).draws, d2 ∈ draws ∨ margin ≤ d2.y :=
      wrapWords_draws_y f mW p ⟨[], y, draws⟩ hy
    simp only [renderParas] at hd
    set st := wrapWords f mW p ⟨[], y, draws⟩ with hst
    by_cases hpe : st.line ≠ [] ∧ margin ≤ st.y
    · rw [if_pos hpe] at hd
      have hdr2 : ∀ d2 ∈ st.draws ++ [(⟨st.line, margin, st.y⟩ : DrawOp)],
          d2 ∈ draws ∨ margin ≤ d2.y := by
        intro d2 hd2
        rcases List.mem_append.mp hd2 with h1 | h2
        · exact hwrap d2 h1
        · right
          rw [List.mem_singleton] at h2
          subst h2
          exact hpe.2
      by_cases hb : (⟨st.line, st.y - lineHeight,
          st.draws ++ [(⟨st.line, margin, st.y⟩ : DrawOp)]⟩ : WrapSt).y - lineHeight * (1 / 2)
          < margin
      · rw [if_pos hb] at hd
        exact hdr2 d hd
      · rw [if_neg hb] at hd
        rcases ih _ _ (not_lt.mp hb) d hd with h1 | h2
        · exact hdr2 d h1
        · exact Or.inr h2
    · rw [if_neg hpe] at hd
      by_cases hb : st.y - lineHeight * (1 / 2) < margin
      · rw [if_pos hb] at hd
        exact hwrap d hd
      · rw [if_neg hb] at hd
        rcases ih _ _ (not_lt.mp hb) d hd with h1 | h2
        · exact hwrap d h1
        · exact Or.inr h2

/-- C7 (amended): on every page whose height is at least `2 * margin`, every
line the Reflow Overlay Renderer draws sits at a vertical position `y ≥
margin`, and once the cursor would cross the bottom margin the remaining
text is dropped (the renderer emits no further draws for the page rather
than adding a page). -/
theorem c7_y_bound (f : List Char → ℚ) (w h : ℚ) (t : String)
    (hh : 2 * margin ≤ h) :
    ∀ d ∈ renderPage f w h t, margin ≤ d.y := by
  intro d hd
  rw [renderPage] at hd
  by_cases ht : t = ""
  · rw [if_pos ht] at hd
    exact absurd hd (List.not_mem_nil d)
  · rw [if_neg ht] at hd
    have hy : margin ≤ h - margin := by linarith
    rcases renderParas_draws_y f (w - margin * 2) _ _ [] hy d hd with h1 | h2
    · exact absurd h1 (List.not_mem_nil d)
    · exact h2

/-- C7 witness: on a 110 × 200 page (height ≥ 50) the single drawn line of
the text `hello` sits at `y = 175 ≥ margin`. -/
theorem c7_y_bound_witness :
    margin ≤ (DrawOp.mk "hello".toList 25 175).y :=
  c7_y_bound widthSix 110 200 "hello" (by norm_num [margin])
    (DrawOp.mk "hello".toList 25 175)
    (by rw [show renderPage widthSix 110 200 "hello" = [DrawOp.mk "hello".toList 25 175] from by
          norm_num [renderPage, renderParas, wrapWords, widthSix, margin, lineHeight, fontSize, List.cons_ne_nil,
            show ¬("hello" = "") from by decide,
            show splitParas "hello".toList = [['h', 'e', 'l', 'l', 'o']] from by decide,
            show splitWords ['h', 'e', 'l', 'l', 'o'] = [['h', 'e', 'l', 'l', 'o']] from by decide]]
        exact List.mem_singleton.mpr rfl)

/-- C7 counterexample: on a 110 × 30 page (shorter than `2 * margin`) the
renderer draws the first wrapped line at `y = 5`, strictly below the bottom
margin 25 — so the unconditional claim fails on short pages. -/
theorem c7_counterexample :
    renderPage widthSix 110 30 "abcde fghijklmnop" = [DrawOp.mk "abcde".toList 25 5]
    ∧ (5 : ℚ) < margin := by
  constructor
  · norm_num [renderPage, renderParas, wrapWords, widthSix, margin, lineHeight, fontSize, List.cons_ne_nil,
      show ¬("abcde fghijklmnop" = "") from by decide,
      show splitParas "abcde fghijklmnop".toList = [("abcde fghijklmnop").toList] from by decide,
      show splitWords ("abcde fghijklmnop").toList
          = [['a', 'b', 'c', 'd', 'e'], ['f', 'g', 'h', 'i', 'j', 'k', 'l', 'm', 'n', 'o', 'p']] from by decide]
  · norm_num [margin]

theorem wrapWords_line_ok (f : List Char → ℚ) (mW : ℚ) :
    ∀ (ws : List (List Char)) (st : WrapSt),
      (∀ w ∈ ws, ∀ c ∈ w, isWs c = false) →
      (f st.line ≤ mW ∨ ∀ c ∈ st.line, isWs c = false) →
      (∀ d ∈ st.draws, f d.text ≤ mW ∨ ∀ c ∈ d.text, isWs c = false) →
      (f (wrapWords f mW ws st).line ≤ mW ∨ ∀ c ∈ (wrapWords f mW ws st).line, isWs c = false)
      ∧ ∀ d ∈ (wrapWords f mW ws st).draws,
          f d.text ≤ mW ∨ ∀ c ∈ d.text, isWs c = false := by
  intro ws
  induction ws with
  | nil =>
    intro st hws hline hdraws
    exact ⟨hline, hdraws⟩
  | cons w ws ih =>
    intro st hws hline hdraws
    have hw : ∀ c ∈ w, isWs c = false := hws w (List.mem_cons_self w ws)
    have hws2 : ∀ x ∈ ws, ∀ c ∈ x, isWs c = false :=
      fun x hx => hws x (List.mem_cons_of_mem w hx)
    rw [wrapWords_cons]
    by_cases hemp : st.line = []
    · simp only [if_pos hemp]
      by_cases hfit : f w ≤ mW
      · rw [if_pos hfit]
        exact ih ⟨w, st.y, st.draws⟩ hws2 (Or.inl hfit) hdraws
      · rw [if_neg hfit]
        by_cases hbrk : (⟨w, st.y, st.draws⟩ : WrapSt).y < margin + lineHeight
        · rw [if_pos hbrk]
          exact ⟨Or.inr hw, hdraws⟩
        · rw [if_neg hbrk]
          exact ih ⟨w, st.y, st.draws⟩ hws2 (Or.inr hw) hdraws
    · simp only [if_neg hemp]
      by_cases hfit : f (st.line ++ ' ' :: w) ≤ mW
      · rw [if_pos hfit]
        exact ih ⟨st.line ++ ' ' :: w, st.y, st.draws⟩ hws2 (Or.inl hfit) hdraws
      · rw [if_neg hfit]
        have hdr2 : ∀ d ∈ st.draws ++ [(⟨st.line, margin, st.y⟩ : DrawOp)],
            f d.text ≤ mW ∨ ∀ c ∈ d.text, isWs c = false := by
          intro d hd
          rcases List.mem_append.mp hd with h1 | h2
          · exact hdraws d h1
          · rw [List.mem_singleton] at h2
            subst h2
            exact hline
        by_cases hbrk : (⟨w, st.y - lineHeight,
            st.draws ++ [⟨st.line, margin, st.y⟩]⟩ : WrapSt).y < margin + lineHeight
        · rw [if_pos hbrk]
          exact ⟨Or.inr hw, hdr2⟩
        · rw [if_neg hbrk]
          exact ih _ hws2 (Or.inr hw) hdr2

theorem renderParas_width_ok (f : List Char → ℚ) (mW : ℚ) :
    ∀ (ps : List (List (List Char))) (y : ℚ) (draws : List DrawOp),
      (∀ p ∈ ps, ∀ w ∈ p, ∀ c ∈ w, isWs c = false) →
      (∀ d ∈ draws, f d.text ≤ mW ∨ ∀ c ∈ d.text, isWs c = false) →
      ∀ d ∈ renderParas f mW ps y draws,
        f d.text ≤ mW ∨ ∀ c ∈ d.text, isWs c = false := by
  intro ps
  induction ps with
  | nil =>
    intro y draws hps hdraws d hd
    exact hdraws d hd
  | cons p ps ih =>
    intro y draws hps hdraws d hd
    have hp : ∀ w ∈ p, ∀ c ∈ w, isWs c = false := hps p (List.mem_cons_self p ps)
    have hps2 : ∀ q ∈ ps, ∀ w ∈ q, ∀ c ∈ w, isWs c = false :=
      fun q hq => hps q (List.mem_cons_of_mem p hq)
    obtain ⟨hline, hdr⟩ :=
      wrapWords_line_ok f mW p ⟨[], y, draws⟩ hp
        (Or.inr (by intro c hc; exact absurd hc (List.not_mem_nil c)))
        hdraws
    simp only [renderParas] at hd
    set st := wrapWords f mW p ⟨[], y, draws⟩ with hst
    by_cases hpe : st.line ≠ [] ∧ margin ≤ st.y
    · rw [if_pos hpe] at hd
      have hdr2 : ∀ d2 ∈ st.draws ++ [(⟨st.line, margin, st.y⟩ : DrawOp)],
          f d2.text ≤ mW ∨ ∀ c ∈ d2.text, isWs c = false := by
        intro d2 hd2
        rcases List.mem_append.mp hd2 with h1 | h2
        · exact hdr d2 h1
        · rw [List.mem_singleton] at h2
          subst h2
          exact hline
      by_cases hb : (⟨st.line, st.y - lineHeight,
          st.draws ++ [(⟨st.line, margin, st.y⟩ : DrawOp)]⟩ : WrapSt).y - lineHeight * (1 / 2)
          < margin
      · rw [if_pos hb] at hd
        exact hdr2 d hd
      · rw [if_neg hb] at hd
        exact ih _ _ hps2 hdr2 d hd
    · rw [if_neg hpe] at hd
      by_cases hb : st.y - lineHeight * (1 / 2) < margin
      · rw [if_pos hb] at hd
        exact hdr d hd
      · rw [if_neg hb] at hd
        exact ih _ _ hps2 hdr d hd

/-- C1 (amended): every line the Reflow Overlay Renderer draws either has
rendered width at most `pageWidth - 2 * margin`, or consists of a single
word (it contains no whitespace character) — a lone word wider than the
bound is drawn overflowing rather than clipped. -/
theorem c1_width_bound (f : List Char → ℚ) (w h : ℚ) (t : String) (d : DrawOp)
    (hd : d ∈ renderPage f w h t) :
    f d.text ≤ w - margin * 2 ∨ ∀ c ∈ d.text, isWs c = false := by
  rw [renderPage] at hd
  by_cases ht : t = ""
  · rw [if_pos ht] at hd
    exact absurd hd (List.not_mem_nil d)
  · rw [if_neg ht] at hd
    refine renderParas_width_ok f (w - margin * 2) _ _ [] ?_ ?_ d hd
    · intro p hp wd hwd c hc
      rcases List.mem_map.mp hp with ⟨cs, _, rfl⟩
      exact splitWords_no_ws cs wd hwd c hc
    · intro d2 hd2
      exact absurd hd2 (List.not_mem_nil d2)

/-- C1 witness: on a 110 × 200 page the drawn line `hello` (width 30 under
the 6-units-per-character metric) is within the bound `110 - 2 * 25`. -/
theorem c1_width_bound_witness :
    widthSix (DrawOp.mk "hello".toList 25 175).text ≤ 110 - margin * 2
    ∨ ∀ c ∈ (DrawOp.mk "hello".toList 25 175).text, isWs c = false :=
  c1_width_bound widthSix 110 200 "hello" (DrawOp.mk "hello".toList 25 175)
    (by rw [show renderPage widthSix 110 200 "hello" = [DrawOp.mk "hello".toList 25 175] from by
          norm_num [renderPage, renderParas, wrapWords, widthSix, margin, lineHeight, fontSize, List.cons_ne_nil,
            show ¬("hello" = "") from by decide,
            show splitParas "hello".toList = [['h', 'e', 'l', 'l', 'o']] from by decide,
            show splitWords ['h', 'e', 'l', 'l', 'o'] = [['h', 'e', 'l', 'l', 'o']] from by decide]]
        exact List.mem_singleton.mpr rfl)

/-- C1 counterexample: a single word of 12 characters is drawn as a line of
rendered width 72 on a page of width 110, exceeding
`pageWidth - 2 * margin = 60` — the renderer does emit a line wider than
the bound, so the claim as stated fails. -/
theorem c1_counterexample :
    renderPage widthSix 110 200 "abcdefghijkl" = [DrawOp.mk "abcdefghijkl".toList 25 175]
    ∧ 110 - margin * 2 < widthSix "abcdefghijkl".toList := by
  constructor
  · norm_num [renderPage, renderParas, wrapWords, widthSix, margin, lineHeight, fontSize, List.cons_ne_nil,
      show ¬("abcdefghijkl" = "") from by decide,
      show splitParas "abcdefghijkl".toList
          = [['a', 'b', 'c', 'd', 'e', 'f', 'g', 'h', 'i', 'j', 'k', 'l']] from by decide,
      show splitWords ['a', 'b', 'c', 'd', 'e', 'f', 'g', 'h', 'i', 'j', 'k', 'l']
          = [['a', 'b', 'c', 'd', 'e', 'f', 'g', 'h', 'i', 'j', 'k', 'l']] from by decide]
  · norm_num [widthSix, margin]

/-! ### C6: per-page translation failure isolation -/

/-- C6: when the translation call for a page fails, the page's translated
text becomes the marked diagnostic `[Translation failed: …]` string
embedding the error, the job still produces one translated text per page
(no abort), and the completed job stored in the cache is immediately
retrievable under its job identifier. -/
theorem c6_translation_failure (net : String → NetOutcome) (pages : List String)
    (i : Nat) (hi : i < pages.length) (e : String) (k : String) (T : ℚ)
    (ht : thresholdOk pages[i])
    (he : (translateWithHuggingFace net (cleanText pages[i])).1 = Except.error e) :
    (processPagesAux net pages).2.1[i]? = some ("[Translation failed: " ++ e ++ "]")
    ∧ (processPagesAux net pages).2.1.length = pages.length
    ∧ cacheGet [(k, CacheEntry.mk (processPagesAux net pages).2.1 T)] T k
        = some (processPagesAux net pages).2.1 := by
  refine ⟨?_, ?_, ?_⟩
  · rw [processPagesAux_translated, List.getElem?_map, List.getElem?_eq_getElem hi]
    simp only [Option.map_some']
    congr 1
    rw [processPage, if_pos ht]
    rcases hr : translateWithHuggingFace net (cleanText pages[i]) with ⟨res, calls⟩
    rw [hr] at he
    simp only at he
    subst he
    rfl
  · rw [processPagesAux_translated, List.length_map]
  · rw [cacheGet]
    simp only [List.find?, beq_self_eq_true, sub_self]
    rw [if_pos (by norm_num [cacheTTL])]

/-- C6 witness: a one-page job whose translation fetch rejects with a
network error yields exactly the diagnostic text, one entry, and a cache
hit at insertion time. -/
theorem c6_translation_failure_witness :
    (processPagesAux (fun _ => NetOutcome.fail "network error") ["aaaaaaaaaaaaaaa"]).2.1[0]?
        = some ("[Translation failed: " ++ "network error" ++ "]")
    ∧ (processPagesAux (fun _ => NetOutcome.fail "network error") ["aaaaaaaaaaaaaaa"]).2.1.length
        = ["aaaaaaaaaaaaaaa"].length
    ∧ cacheGet
        [("job1", CacheEntry.mk
          (processPagesAux (fun _ => NetOutcome.fail "network error") ["aaaaaaaaaaaaaaa"]).2.1 0)]
        0 "job1"
        = some (processPagesAux (fun _ => NetOutcome.fail "network error") ["aaaaaaaaaaaaaaa"]).2.1 :=
  c6_translation_failure (fun _ => NetOutcome.fail "network error") ["aaaaaaaaaaaaaaa"]
    0 (by decide) "network error" "job1" 0 (by decide) (by decide)

end Translation
